import Mathlib

/-
Verification development for the safetyhook near-address allocator
(src/include/safetyhook/allocator.hpp).  The repository ships only the
header: the class layouts, the inline body of Allocation::operator bool,
and the declarations of the allocator operations.  The bodies of those
operations are therefore modelled from the specification (spec.md), as
marked on each definition below.  Addresses and sizes are uintptr_t /
size_t values, embedded as Nat.
-/

namespace SafetyHook

/-- Absolute difference of two addresses, the spec's |a - d|. -/
def natDist (a b : Nat) : Nat := if b ≤ a then a - b else b - a

/-- One free sub-range of a chunk; source struct Allocator::FreeNode
(allocator.hpp lines 94-98).  The source field end is called stop here
because end is a Lean keyword; the next pointer of the intrusive list is
represented by the List structure holding the nodes. -/
structure FreeNode where
  start : Nat
  stop : Nat
deriving DecidableEq

/-- One OS-reserved chunk; source struct Allocator::Memory
(allocator.hpp lines 100-106). -/
structure Memory where
  address : Nat
  size : Nat
  freelist : List FreeNode
deriving DecidableEq

/-- The allocator state: its collection m_memory of chunks
(allocator.hpp line 108).  The mutex only serializes calls and has no
effect on the sequential semantics modelled here. -/
structure Allocator where
  m_memory : List Memory
deriving DecidableEq

/-- Source enum Allocator::Error (allocator.hpp lines 70-73). -/
inductive Error where
  | BAD_VIRTUAL_ALLOC
  | NO_MEMORY_IN_RANGE
deriving DecidableEq

/-- Reply of the opaque OS virtual-memory service to one reservation
attempt at a candidate base address (spec §6 treats the service as an
external collaborator): the reservation is granted, refused at this
position (the probing continues), or fails unrecoverably (mapped to
BAD_VIRTUAL_ALLOC, spec §7). -/
inductive OSReply where
  | granted
  | refused
  | fatal
deriving DecidableEq

/-- Modelled from the spec (§4.1): the missing allocator.cpp reserves new
OS-backed chunks of a fixed default size, large enough to service several
future requests; a request larger than the default gets a chunk of its
own size. -/
def default_chunk_size : Nat := 0x10000

/-- Modelled from the spec (§4.1): size of the chunk reserved for a
request of the given size. -/
def chunk_size_for (size : Nat) : Nat := max size default_chunk_size

/-- Modelled from the spec (§4.2): the declared Allocator::in_range
(allocator.hpp lines 120-121, body in the missing allocator.cpp).  A
candidate address is in range when, for each desired address d, the
absolute difference between the candidate and d does not exceed
max_distance. -/
def in_range (address : Nat) (desired_addresses : List Nat) (max_distance : Nat) : Bool :=
  desired_addresses.all fun d => decide (natDist address d ≤ max_distance)

/-- Modelled from the spec (§4.1, §4.2): first-fit carve-out from one
chunk's free list, part of the missing allocator.cpp.  The first node
whose length is at least size and whose start is in range of every
desired address is split: a prefix of exactly size bytes is carved off,
the node is shrunk, or removed when exactly consumed. -/
def carve_node (size : Nat) (desired : List Nat) (maxd : Nat) :
    List FreeNode → Option (Nat × List FreeNode)
  | [] => none
  | n :: rest =>
    if n.start + size ≤ n.stop ∧ in_range n.start desired maxd = true then
      if n.start + size = n.stop then some (n.start, rest)
      else some (n.start, ⟨n.start + size, n.stop⟩ :: rest)
    else
      match carve_node size desired maxd rest with
      | none => none
      | some (a, rest') => some (a, n :: rest')

/-- Modelled from the spec (§4.1, §4.2): scan the chunks in order and
carve from the first free range that fits, part of the missing
allocator.cpp. -/
def carve_chunks (size : Nat) (desired : List Nat) (maxd : Nat) :
    List Memory → Option (Nat × List Memory)
  | [] => none
  | m :: rest =>
    match carve_node size desired maxd m.freelist with
    | some (a, fl') => some (a, { m with freelist := fl' } :: rest)
    | none =>
      match carve_chunks size desired maxd rest with
      | none => none
      | some (a, rest') => some (a, m :: rest')

/-- Modelled from the spec (§4.2): the declared
Allocator::allocate_nearby_memory (allocator.hpp lines 118-119, body in
the missing allocator.cpp).  Probe a bounded, deterministically generated
sequence of candidate base addresses (cands); a candidate is attempted
when the full chunk it would create stays within range of every desired
address; the OS may grant it, refuse it (probing continues), or fail
unrecoverably.  An exhausted probe sequence reports NO_MEMORY_IN_RANGE. -/
def allocate_nearby_memory (os : Nat → OSReply) :
    List Nat → List Nat → Nat → Nat → Except Error Nat
  | [], _, _, _ => .error .NO_MEMORY_IN_RANGE
  | c :: cs, desired, csize, maxd =>
    if in_range c desired maxd = true ∧ in_range (c + csize) desired maxd = true then
      match os c with
      | .granted => .ok c
      | .fatal => .error .BAD_VIRTUAL_ALLOC
      | .refused => allocate_nearby_memory os cs desired csize maxd
    else allocate_nearby_memory os cs desired csize maxd

/-- Modelled from the spec (§4.1, §4.2): the declared
Allocator::internal_allocate_near (allocator.hpp lines 113-114, body in
the missing allocator.cpp).  First-fit carve from the existing chunks;
otherwise reserve a fresh chunk near the desired addresses and retry the
carve-out against the fresh chunk's single whole-chunk free node.  On
failure nothing is registered (spec §7: allocator state remains as if the
call never happened). -/
def internal_allocate_near (os : Nat → OSReply) (cands : List Nat) (al : Allocator)
    (desired : List Nat) (size maxd : Nat) : Except Error Nat × Allocator :=
  match carve_chunks size desired maxd al.m_memory with
  | some (a, mems') => (.ok a, ⟨mems'⟩)
  | none =>
    match allocate_nearby_memory os cands desired (chunk_size_for size) maxd with
    | .error e => (.error e, al)
    | .ok base =>
      match carve_node size desired maxd [⟨base, base + chunk_size_for size⟩] with
      | some (a, fl') => (.ok a, ⟨al.m_memory ++ [⟨base, chunk_size_for size, fl'⟩]⟩)
      | none => (.error .NO_MEMORY_IN_RANGE, al)

/-- Modelled from the spec (§4.2): Allocator::allocate_near
(allocator.hpp lines 85-86) locks and delegates to
internal_allocate_near. -/
def Allocator.allocate_near (os : Nat → OSReply) (cands : List Nat) (al : Allocator)
    (desired_addresses : List Nat) (size : Nat) (max_distance : Nat := 0x7FFFFFFF) :
    Except Error Nat × Allocator :=
  internal_allocate_near os cands al desired_addresses size max_distance

/-- Modelled from the spec (§4.1): Allocator::allocate (allocator.hpp
line 78) is the unconstrained request: no desired addresses, so the
proximity check is vacuous. -/
def Allocator.allocate (os : Nat → OSReply) (cands : List Nat) (al : Allocator)
    (size : Nat) : Except Error Nat × Allocator :=
  internal_allocate_near os cands al [] size 0x7FFFFFFF

/-- Modelled from the spec (§4.4): reinsert a freed range into the free
list of the chunk that contains it, keeping the list sorted by start
address, part of the missing allocator.cpp. -/
def insert_freenode (r : FreeNode) : List FreeNode → List FreeNode
  | [] => [r]
  | n :: rest => if r.start ≤ n.start then r :: n :: rest else n :: insert_freenode r rest

/-- Modelled from the spec (§4.3): the declared
Allocator::combine_adjacent_freenodes (allocator.hpp line 117, body in
the missing allocator.cpp).  One linear pass over the sorted list that
merges every pair of contiguous nodes (a.end == b.start) until no
further merge applies. -/
def combine_adjacent_freenodes : List FreeNode → List FreeNode
  | [] => []
  | a :: rest =>
    match combine_adjacent_freenodes rest with
    | [] => [a]
    | b :: rest' =>
      if a.stop = b.start then ⟨a.start, b.stop⟩ :: rest'
      else a :: b :: rest'

/-- Modelled from the spec (§4.4): the declared Allocator::internal_free
(allocator.hpp line 115, body in the missing allocator.cpp).  Reinsert
the range into the free list of the chunk that contains it, then run
coalescing on that chunk. -/
def internal_free_mem (address size : Nat) : List Memory → List Memory
  | [] => []
  | m :: rest =>
    if m.address ≤ address ∧ address + size ≤ m.address + m.size then
      let fl := combine_adjacent_freenodes (insert_freenode ⟨address, address + size⟩ m.freelist)
      { m with freelist := fl } :: rest
    else m :: internal_free_mem address size rest

/-- Modelled from the spec (§4.4): Allocator::free (allocator.hpp line
91) locks and delegates to internal_free. -/
def Allocator.free (al : Allocator) (address size : Nat) : Allocator :=
  ⟨internal_free_mem address size al.m_memory⟩

/-- The allocation handle; source class Allocation (allocator.hpp lines
16-50).  The m_allocator shared_ptr is modelled by a Bool recording
whether it is non-null; the Allocator state the handle mutates through it
is passed explicitly to the operations below. -/
structure Allocation where
  m_allocator : Bool
  m_address : Nat
  m_size : Nat
deriving DecidableEq

/-- Source inline body (allocator.hpp line 39): explicit operator bool,
true iff m_address and m_size are both non-zero. -/
def Allocation.op_bool (a : Allocation) : Bool :=
  (a.m_address != 0) && (a.m_size != 0)

/-- A default-constructed Allocation (allocator.hpp line 18): null
allocator pointer, zero address and size. -/
def Allocation.default_ctor : Allocation := ⟨false, 0, 0⟩

/-- Modelled from the spec (§4.5): Allocation::free (allocator.hpp line
27, body in the missing allocator.cpp) idempotently releases the range:
when the handle holds an allocator and a non-zero address and size, the
range is returned to the allocator, and in every case the handle becomes
invalid. -/
def Allocation.free (a : Allocation) (st : Allocator) : Allocation × Allocator :=
  if a.m_allocator = true ∧ a.m_address ≠ 0 ∧ a.m_size ≠ 0 then
    (⟨false, 0, 0⟩, st.free a.m_address a.m_size)
  else (⟨false, 0, 0⟩, st)

/-- Modelled from the spec (§4.5): Allocation::~Allocation (allocator.hpp
line 23) calls free(). -/
def Allocation.dtor (a : Allocation) (st : Allocator) : Allocator :=
  (a.free st).2

/-- Modelled from the spec (§4.5): move assignment (allocator.hpp line
22, body in the missing allocator.cpp) frees any range previously held by
the destination, transfers allocator reference, address and size from the
source, and invalidates the source.  Returns (new destination, new
source, allocator state after freeing the destination's old range). -/
def Allocation.move_assign (dst src : Allocation) (st : Allocator) :
    Allocation × Allocation × Allocator :=
  (⟨src.m_allocator, src.m_address, src.m_size⟩, ⟨false, 0, 0⟩, (Allocation.free dst st).2)

/-- Modelled from the spec (§4.5): move construction (allocator.hpp line
20, body in the missing allocator.cpp) transfers the fields to the new
object and invalidates the source; the fresh destination holds nothing,
so no range is freed.  Returns (new destination, new source). -/
def Allocation.move_construct (src : Allocation) : Allocation × Allocation :=
  (⟨src.m_allocator, src.m_address, src.m_size⟩, ⟨false, 0, 0⟩)

end SafetyHook

namespace SafetyHook

/-! ### Range predicates used by the invariants -/

/-- Address x lies in the free range n. -/
def inNode (x : Nat) (n : FreeNode) : Prop := n.start ≤ x ∧ x < n.stop

/-- Address x lies in chunk m. -/
def inChunk (x : Nat) (m : Memory) : Prop := m.address ≤ x ∧ x < m.address + m.size

/-- Range n is a sub-range of chunk m. -/
def withinChunk (n : FreeNode) (m : Memory) : Prop :=
  m.address ≤ n.start ∧ n.stop ≤ m.address + m.size

/-- Some node of the list covers address x. -/
def coversF (l : List FreeNode) (x : Nat) : Prop := ∃ n, n ∈ l ∧ inNode x n

/-- The free list is sorted by start with strict gaps between nodes. -/
def FLsorted (l : List FreeNode) : Prop := l.Pairwise fun a b => a.stop < b.start

/-- A well-formed chunk: nonempty free ranges inside the chunk, sorted
with strict gaps (the coalesced form). -/
def MemWf (m : Memory) : Prop :=
  (∀ n ∈ m.freelist, n.start < n.stop ∧ withinChunk n m) ∧ FLsorted m.freelist

/-- Two chunks share no address. -/
def MemDisj (m m' : Memory) : Prop := ∀ x, inChunk x m → inChunk x m' → False

/-- Two ranges share no address. -/
def NodeDisj (r s : FreeNode) : Prop := ∀ x, inNode x r → inNode x s → False

theorem coversF_nil (x : Nat) : ¬ coversF [] x := by simp [coversF]

theorem coversF_cons {n : FreeNode} {l : List FreeNode} {x : Nat} :
    coversF (n :: l) x ↔ inNode x n ∨ coversF l x := by
  simp only [coversF, List.mem_cons]
  constructor
  · rintro ⟨n', hn' | hn', hx⟩
    · exact Or.inl (hn' ▸ hx)
    · exact Or.inr ⟨n', hn', hx⟩
  · rintro (hx | ⟨n', hn', hx⟩)
    · exact ⟨n, Or.inl rfl, hx⟩
    · exact ⟨n', Or.inr hn', hx⟩

theorem NodeDisj_symm {r s : FreeNode} (h : NodeDisj r s) : NodeDisj s r :=
  fun x hs hr => h x hr hs

theorem MemDisj_symm {m m' : Memory} (h : MemDisj m m') : MemDisj m' m :=
  fun x h1 h2 => h x h2 h1

/-- Two nonempty disjoint ranges are ordered. -/
theorem NodeDisj.ordered {r s : FreeNode} (hr : r.start < r.stop) (hs : s.start < s.stop)
    (h : NodeDisj r s) : r.stop ≤ s.start ∨ s.stop ≤ r.start := by
  by_contra hc
  push_neg at hc
  exact h (max r.start s.start) ⟨by omega, by omega⟩ ⟨by omega, by omega⟩

theorem in_range_iff {a maxd : Nat} {l : List Nat} :
    in_range a l maxd = true ↔ ∀ d ∈ l, natDist a d ≤ maxd := by
  simp [in_range, List.all_eq_true]

/-! ### Lemmas about carve_node -/

theorem carve_node_in_range {size maxd : Nat} {desired : List Nat} {fl fl' : List FreeNode}
    {a : Nat} (h : carve_node size desired maxd fl = some (a, fl')) :
    in_range a desired maxd = true := by
  induction fl generalizing fl' with
  | nil => simp [carve_node] at h
  | cons n rest ih =>
    rw [carve_node] at h
    split at h
    · rename_i hcond
      split at h <;> simp only [Option.some.injEq, Prod.mk.injEq] at h <;>
        exact h.1 ▸ hcond.2
    · rcases hrec : carve_node size desired maxd rest with _ | ⟨a₀, rest₀⟩ <;>
        rw [hrec] at h
      · simp at h
      · simp only [Option.some.injEq, Prod.mk.injEq] at h
        obtain ⟨rfl, rfl⟩ := h
        exact ih hrec

theorem carve_node_within {size maxd : Nat} {desired : List Nat} {fl fl' : List FreeNode}
    {a : Nat} (h : carve_node size desired maxd fl = some (a, fl')) :
    ∃ n ∈ fl, n.start = a ∧ a + size ≤ n.stop := by
  induction fl generalizing fl' with
  | nil => simp [carve_node] at h
  | cons n rest ih =>
    rw [carve_node] at h
    split at h
    · rename_i hcond
      split at h <;> simp only [Option.some.injEq, Prod.mk.injEq] at h <;>
        exact ⟨n, List.mem_cons_self n rest, h.1, h.1 ▸ hcond.1⟩
    · rcases hrec : carve_node size desired maxd rest with _ | ⟨a₀, rest₀⟩ <;>
        rw [hrec] at h
      · simp at h
      · simp only [Option.some.injEq, Prod.mk.injEq] at h
        obtain ⟨rfl, rfl⟩ := h
        obtain ⟨n₀, hn₀, h1, h2⟩ := ih hrec
        exact ⟨n₀, List.mem_cons_of_mem n hn₀, h1, h2⟩

theorem carve_node_sub {size maxd : Nat} {desired : List Nat} {fl fl' : List FreeNode}
    {a : Nat} (h : carve_node size desired maxd fl = some (a, fl')) :
    ∀ n' ∈ fl', ∃ n ∈ fl, n.start ≤ n'.start ∧ n'.stop ≤ n.stop := by
  induction fl generalizing fl' with
  | nil => simp [carve_node] at h
  | cons n rest ih =>
    rw [carve_node] at h
    split at h
    · split at h <;> simp only [Option.some.injEq, Prod.mk.injEq] at h
      · obtain ⟨rfl, rfl⟩ := h
        intro n' hn'
        exact ⟨n', List.mem_cons_of_mem n hn', le_refl _, le_refl _⟩
      · obtain ⟨rfl, rfl⟩ := h
        intro n' hn'
        rcases List.mem_cons.mp hn' with rfl | hn'
        · exact ⟨n, List.mem_cons_self n rest, Nat.le_add_right _ _, le_refl _⟩
        · exact ⟨n', List.mem_cons_of_mem n hn', le_refl _, le_refl _⟩
    · rcases hrec : carve_node size desired maxd rest with _ | ⟨a₀, rest₀⟩ <;>
        rw [hrec] at h
      · simp at h
      · simp only [Option.some.injEq, Prod.mk.injEq] at h
        obtain ⟨rfl, rfl⟩ := h
        intro n' hn'
        rcases List.mem_cons.mp hn' with rfl | hn'
        · exact ⟨n', List.mem_cons_self _ _, le_refl _, le_refl _⟩
        · obtain ⟨n₀, hn₀, h1, h2⟩ := ih hrec n' hn'
          exact ⟨n₀, List.mem_cons_of_mem n hn₀, h1, h2⟩

end SafetyHook

namespace SafetyHook

theorem carve_node_cover {size maxd : Nat} {desired : List Nat} {fl fl' : List FreeNode}
    {a : Nat} (h : carve_node size desired maxd fl = some (a, fl')) (x : Nat) :
    coversF fl x ↔ (coversF fl' x ∨ (a ≤ x ∧ x < a + size)) := by
  induction fl generalizing fl' with
  | nil => simp [carve_node] at h
  | cons n rest ih =>
    rw [carve_node] at h
    split at h
    · rename_i hcond
      have hc1 := hcond.1
      split at h <;> rename_i hex <;> simp only [Option.some.injEq, Prod.mk.injEq] at h <;>
        obtain ⟨rfl, rfl⟩ := h
      · simp only [coversF_cons, inNode]
        rw [hex]
        exact or_comm
      · simp only [coversF_cons, inNode]
        constructor
        · rintro (⟨h1, h2⟩ | hC)
          · by_cases hx : x < n.start + size
            · exact Or.inr ⟨h1, hx⟩
            · exact Or.inl (Or.inl ⟨by omega, h2⟩)
          · exact Or.inl (Or.inr hC)
        · rintro ((⟨h1, h2⟩ | hC) | ⟨h1, h2⟩)
          · exact Or.inl ⟨by omega, h2⟩
          · exact Or.inr hC
          · exact Or.inl ⟨h1, by omega⟩
    · rcases hrec : carve_node size desired maxd rest with _ | ⟨a₀, rest₀⟩ <;>
        rw [hrec] at h
      · simp at h
      · simp only [Option.some.injEq, Prod.mk.injEq] at h
        obtain ⟨rfl, rfl⟩ := h
        simp only [coversF_cons]
        rw [ih hrec]
        tauto

theorem carve_node_nonempty {size maxd : Nat} {desired : List Nat} {fl fl' : List FreeNode}
    {a : Nat} (hne : ∀ n ∈ fl, n.start < n.stop)
    (h : carve_node size desired maxd fl = some (a, fl')) :
    ∀ n' ∈ fl', n'.start < n'.stop := by
  induction fl generalizing fl' with
  | nil => simp [carve_node] at h
  | cons n rest ih =>
    rw [carve_node] at h
    split at h
    · rename_i hcond
      have hc1 := hcond.1
      split at h <;> rename_i hex <;> simp only [Option.some.injEq, Prod.mk.injEq] at h <;>
        obtain ⟨rfl, rfl⟩ := h
      · exact fun n' hn' => hne n' (List.mem_cons_of_mem n hn')
      · intro n' hn'
        rcases List.mem_cons.mp hn' with rfl | hn'
        · show n.start + size < n.stop
          omega
        · exact hne n' (List.mem_cons_of_mem n hn')
    · rcases hrec : carve_node size desired maxd rest with _ | ⟨a₀, rest₀⟩ <;>
        rw [hrec] at h
      · simp at h
      · simp only [Option.some.injEq, Prod.mk.injEq] at h
        obtain ⟨rfl, rfl⟩ := h
        intro n' hn'
        rcases List.mem_cons.mp hn' with rfl | hn'
        · exact hne n' (List.mem_cons_self _ _)
        · exact ih (fun n₀ h₀ => hne n₀ (List.mem_cons_of_mem n h₀)) hrec n' hn'

theorem carve_node_sorted {size maxd : Nat} {desired : List Nat} {fl fl' : List FreeNode}
    {a : Nat} (hs : FLsorted fl)
    (h : carve_node size desired maxd fl = some (a, fl')) :
    FLsorted fl' := by
  induction fl generalizing fl' with
  | nil => simp [carve_node] at h
  | cons n rest ih =>
    obtain ⟨hhead, htail⟩ := List.pairwise_cons.mp hs
    rw [carve_node] at h
    split at h
    · rename_i hcond
      split at h <;> rename_i hex <;> simp only [Option.some.injEq, Prod.mk.injEq] at h <;>
        obtain ⟨rfl, rfl⟩ := h
      · exact htail
      · exact List.pairwise_cons.mpr ⟨fun b hb => hhead b hb, htail⟩
    · rcases hrec : carve_node size desired maxd rest with _ | ⟨a₀, rest₀⟩ <;>
        rw [hrec] at h
      · simp at h
      · simp only [Option.some.injEq, Prod.mk.injEq] at h
        obtain ⟨rfl, rfl⟩ := h
        refine List.pairwise_cons.mpr ⟨fun b hb => ?_, ih htail hrec⟩
        obtain ⟨n₀, hn₀, h1, h2⟩ := carve_node_sub hrec b hb
        exact lt_of_lt_of_le (hhead n₀ hn₀) h1

theorem carve_node_excl {size maxd : Nat} {desired : List Nat} {fl fl' : List FreeNode}
    {a : Nat} (hne : ∀ n ∈ fl, n.start < n.stop) (hs : FLsorted fl)
    (h : carve_node size desired maxd fl = some (a, fl')) :
    ∀ x, coversF fl' x → a ≤ x → x < a + size → False := by
  induction fl generalizing fl' with
  | nil => simp [carve_node] at h
  | cons n rest ih =>
    obtain ⟨hhead, htail⟩ := List.pairwise_cons.mp hs
    rw [carve_node] at h
    split at h
    · rename_i hcond
      have hc1 := hcond.1
      split at h <;> rename_i hex <;> simp only [Option.some.injEq, Prod.mk.injEq] at h <;>
        obtain ⟨rfl, rfl⟩ := h <;> intro x hcov hxa hxs
      · obtain ⟨n', hn', hx1, hx2⟩ := hcov
        have := hhead n' hn'
        omega
      · rcases coversF_cons.mp hcov with hx | ⟨n', hn', hx1, hx2⟩
        · obtain ⟨hx1, hx2⟩ := hx
          simp only at hx1 hx2
          omega
        · have := hhead n' hn'
          omega
    · rcases hrec : carve_node size desired maxd rest with _ | ⟨a₀, rest₀⟩ <;>
        rw [hrec] at h
      · simp at h
      · simp only [Option.some.injEq, Prod.mk.injEq] at h
        obtain ⟨rfl, rfl⟩ := h
        intro x hcov hxa hxs
        rcases coversF_cons.mp hcov with ⟨hx1, hx2⟩ | hx
        · obtain ⟨n₀, hn₀, h1, h2⟩ := carve_node_within hrec
          have := hhead n₀ hn₀
          omega
        · exact ih (fun n₀ h₀ => hne n₀ (List.mem_cons_of_mem n h₀)) htail hrec x hx hxa hxs

end SafetyHook

namespace SafetyHook

/-- A successful scan over the chunks carves from exactly one chunk and
leaves every other chunk untouched. -/
theorem carve_chunks_eq {size maxd : Nat} {desired : List Nat} {mems mems' : List Memory}
    {a : Nat} (h : carve_chunks size desired maxd mems = some (a, mems')) :
    ∃ pre m post fl', mems = pre ++ m :: post ∧
      mems' = pre ++ { m with freelist := fl' } :: post ∧
      carve_node size desired maxd m.freelist = some (a, fl') := by
  induction mems generalizing mems' with
  | nil => simp [carve_chunks] at h
  | cons m rest ih =>
    rw [carve_chunks] at h
    rcases hcn : carve_node size desired maxd m.freelist with _ | ⟨a₀, fl₀⟩ <;>
      rw [hcn] at h
    · rcases hrec : carve_chunks size desired maxd rest with _ | ⟨a₁, rest₁⟩ <;>
        rw [hrec] at h
      · simp at h
      · simp only [Option.some.injEq, Prod.mk.injEq] at h
        obtain ⟨rfl, rfl⟩ := h
        obtain ⟨pre, m₀, post, fl', h1, h2, h3⟩ := ih hrec
        exact ⟨m :: pre, m₀, post, fl', by rw [h1]; rfl, by rw [h2]; rfl, h3⟩
    · simp only [Option.some.injEq, Prod.mk.injEq] at h
      obtain ⟨rfl, rfl⟩ := h
      exact ⟨[], m, rest, fl₀, rfl, rfl, hcn⟩

/-! ### Lemmas about insert_freenode and combine_adjacent_freenodes -/

theorem insert_freenode_mem {r n : FreeNode} {l : List FreeNode} :
    n ∈ insert_freenode r l ↔ n = r ∨ n ∈ l := by
  induction l with
  | nil => simp [insert_freenode]
  | cons m rest ih =>
    rw [insert_freenode]
    split
    · simp [List.mem_cons]
    · simp only [List.mem_cons, ih]
      tauto

theorem insert_freenode_cover {r : FreeNode} {l : List FreeNode} (x : Nat) :
    coversF (insert_freenode r l) x ↔ inNode x r ∨ coversF l x := by
  constructor
  · rintro ⟨n, hn, hx⟩
    rcases insert_freenode_mem.mp hn with rfl | hn
    · exact Or.inl hx
    · exact Or.inr ⟨n, hn, hx⟩
  · rintro (hx | ⟨n, hn, hx⟩)
    · exact ⟨r, insert_freenode_mem.mpr (Or.inl rfl), hx⟩
    · exact ⟨n, insert_freenode_mem.mpr (Or.inr hn), hx⟩

/-- Inserting a range that is disjoint from every node of a sorted free
list yields a sorted list, possibly with touching (adjacent) nodes. -/
theorem insert_freenode_sorted {r : FreeNode} {l : List FreeNode}
    (hne : ∀ n ∈ l, n.start < n.stop) (hr : r.start < r.stop)
    (hs : FLsorted l)
    (hd : ∀ n ∈ l, r.stop ≤ n.start ∨ n.stop ≤ r.start) :
    (insert_freenode r l).Pairwise fun a b => a.stop ≤ b.start := by
  induction l with
  | nil => simp [insert_freenode]
  | cons m rest ih =>
    obtain ⟨hhead, htail⟩ := List.pairwise_cons.mp hs
    rw [insert_freenode]
    split
    · rename_i hle
      refine List.pairwise_cons.mpr ⟨?_, ?_⟩
      · intro b hb
        rcases List.mem_cons.mp hb with rfl | hb
        · have h2 := hne _ (List.mem_cons_self _ _)
          rcases hd _ (List.mem_cons_self _ _) with h | h
          · exact h
          · omega
        · have h1 := hhead b hb
          have h2 := hne m (List.mem_cons_self _ _)
          rcases hd m (List.mem_cons_self _ _) with h | h
          · omega
          · omega
      · exact List.Pairwise.imp (fun h => Nat.le_of_lt h)
          (List.pairwise_cons.mpr ⟨hhead, htail⟩)
    · rename_i hgt
      refine List.pairwise_cons.mpr ⟨?_, ?_⟩
      · intro b hb
        rcases insert_freenode_mem.mp hb with rfl | hb
        · rcases hd m (List.mem_cons_self _ _) with h | h
          · omega
          · exact h
        · exact Nat.le_of_lt (hhead b hb)
      · exact ih (fun n h => hne n (List.mem_cons_of_mem m h)) htail
          (fun n h => hd n (List.mem_cons_of_mem m h))

/-- The coalescing pass keeps the head start address of the list. -/
theorem combine_head {a : FreeNode} {rest : List FreeNode} :
    ∃ b rest', combine_adjacent_freenodes (a :: rest) = b :: rest' ∧ b.start = a.start := by
  rw [combine_adjacent_freenodes]
  rcases h : combine_adjacent_freenodes rest with _ | ⟨b, rest'⟩
  · exact ⟨a, [], rfl, rfl⟩
  · dsimp only
    split
    · exact ⟨_, rest', rfl, rfl⟩
    · exact ⟨a, b :: rest', rfl, rfl⟩

/-- Coalescing preserves any per-node bound. -/
theorem combine_bounds {l : List FreeNode} {lo hi : Nat}
    (hb : ∀ n ∈ l, lo ≤ n.start ∧ n.stop ≤ hi) :
    ∀ n ∈ combine_adjacent_freenodes l, lo ≤ n.start ∧ n.stop ≤ hi := by
  induction l with
  | nil => simp [combine_adjacent_freenodes]
  | cons a rest ih =>
    rw [combine_adjacent_freenodes]
    rcases h : combine_adjacent_freenodes rest with _ | ⟨b, rest'⟩
    · intro n hn
      rcases List.mem_cons.mp hn with rfl | hn
      · exact hb n (List.mem_cons_self _ _)
      · simp at hn
    · have ihb := ih (fun n hn => hb n (List.mem_cons_of_mem a hn))
      rw [h] at ihb
      dsimp only
      split
      · intro n hn
        rcases List.mem_cons.mp hn with rfl | hn
        · have h1 := hb a (List.mem_cons_self _ _)
          have h2 := ihb b (List.mem_cons_self _ _)
          exact ⟨h1.1, h2.2⟩
        · exact ihb n (List.mem_cons_of_mem b hn)
      · intro n hn
        rcases List.mem_cons.mp hn with rfl | hn
        · exact hb _ (List.mem_cons_self _ _)
        · exact ihb n hn

/-- Coalescing a sorted list with nonempty nodes yields a sorted list
with strict gaps and nonempty nodes. -/
theorem combine_wf {l : List FreeNode}
    (hne : ∀ n ∈ l, n.start < n.stop)
    (hs : l.Pairwise fun a b => a.stop ≤ b.start) :
    (∀ n ∈ combine_adjacent_freenodes l, n.start < n.stop) ∧
      FLsorted (combine_adjacent_freenodes l) := by
  induction l with
  | nil => simp [combine_adjacent_freenodes, FLsorted]
  | cons a rest ih =>
    obtain ⟨hhead, htail⟩ := List.pairwise_cons.mp hs
    obtain ⟨ih1, ih2⟩ := ih (fun n hn => hne n (List.mem_cons_of_mem a hn)) htail
    rw [combine_adjacent_freenodes]
    rcases h : combine_adjacent_freenodes rest with _ | ⟨b, rest'⟩
    · constructor
      · intro n hn
        rcases List.mem_cons.mp hn with rfl | hn
        · exact hne _ (List.mem_cons_self _ _)
        · simp at hn
      · simp [FLsorted]
    · rw [h] at ih1 ih2
      obtain ⟨bh, btail⟩ := List.pairwise_cons.mp ih2
      -- every node of the coalesced tail starts at or after the start of rest's head
      have hbst : rest ≠ [] := by
        intro hrest
        rw [hrest] at h
        simp [combine_adjacent_freenodes] at h
      have hastop : a.stop ≤ b.start := by
        rcases rest with _ | ⟨c, rest₂⟩
        · simp at hbst
        · obtain ⟨b₀, rest₀, hc, hcs⟩ := @combine_head c rest₂
          rw [hc] at h
          have hb₀ : b = b₀ := by
            have := h
            injection this with h1 h2
            exact h1.symm
          rw [hb₀, hcs]
          exact hhead c (List.mem_cons_self _ _)
      dsimp only
      split
      · rename_i heq
        constructor
        · intro n hn
          rcases List.mem_cons.mp hn with rfl | hn
          · show a.start < b.stop
            have h1 := hne a (List.mem_cons_self _ _)
            have h2 := ih1 b (List.mem_cons_self _ _)
            omega
          · exact ih1 n (List.mem_cons_of_mem b hn)
        · refine List.pairwise_cons.mpr ⟨?_, btail⟩
          intro c hc
          show b.stop < c.start
          exact bh c hc
      · rename_i hne2
        constructor
        · intro n hn
          rcases List.mem_cons.mp hn with rfl | hn
          · exact hne _ (List.mem_cons_self _ _)
          · exact ih1 n hn
        · refine List.pairwise_cons.mpr ⟨?_, ih2⟩
          intro c hc
          rcases List.mem_cons.mp hc with rfl | hc
          · omega
          · have h1 := bh c hc
            have h2 := ih1 b (List.mem_cons_self _ _)
            omega

/-- Coalescing a sorted list with nonempty nodes covers exactly the same
addresses. -/
theorem combine_cover {l : List FreeNode}
    (hne : ∀ n ∈ l, n.start < n.stop)
    (hs : l.Pairwise fun a b => a.stop ≤ b.start) (x : Nat) :
    coversF (combine_adjacent_freenodes l) x ↔ coversF l x := by
  induction l with
  | nil => simp [combine_adjacent_freenodes]
  | cons a rest ih =>
    obtain ⟨hhead, htail⟩ := List.pairwise_cons.mp hs
    have hnet : ∀ n ∈ rest, n.start < n.stop :=
      fun n hn => hne n (List.mem_cons_of_mem a hn)
    have ih := ih hnet htail
    have hna := hne a (List.mem_cons_self _ _)
    rw [combine_adjacent_freenodes]
    rcases h : combine_adjacent_freenodes rest with _ | ⟨b, rest'⟩
    · rw [h] at ih
      simp only [coversF_cons]
      rw [← ih]
    · rw [h] at ih
      have hnb : b.start < b.stop := by
        have := (combine_wf hnet htail).1
        rw [h] at this
        exact this b (List.mem_cons_self _ _)
      dsimp only
      split
      · rename_i heq
        simp only [coversF_cons] at ih ⊢
        constructor
        · rintro (hx | hx)
          · obtain ⟨h1, h2⟩ := hx
            simp only at h1 h2
            by_cases hxa : x < a.stop
            · exact Or.inl ⟨h1, hxa⟩
            · have : inNode x b := ⟨by omega, h2⟩
              exact Or.inr (ih.mp (Or.inl this))
          · exact Or.inr (ih.mp (Or.inr hx))
        · rintro (hx | hx)
          · obtain ⟨h1, h2⟩ := hx
            exact Or.inl ⟨h1, by simp only; omega⟩
          · rcases ih.mpr hx with hb | hrest'
            · obtain ⟨h1, h2⟩ := hb
              exact Or.inl ⟨by simp only; omega, by simp only; omega⟩
            · exact Or.inr hrest'
      · simp only [coversF_cons] at ih ⊢
        rw [ih]
end SafetyHook

namespace SafetyHook

/-- The updated chunk after a range is freed back into it. -/
def free_into (address size : Nat) (m : Memory) : Memory :=
  { m with freelist := combine_adjacent_freenodes (insert_freenode ⟨address, address + size⟩ m.freelist) }

/-- internal_free updates the first chunk containing the range and
leaves all other chunks untouched. -/
theorem internal_free_mem_eq {address size : Nat} {pre post : List Memory} {m : Memory}
    (hpre : ∀ m₀ ∈ pre, ¬ (m₀.address ≤ address ∧ address + size ≤ m₀.address + m₀.size))
    (hm : m.address ≤ address ∧ address + size ≤ m.address + m.size) :
    internal_free_mem address size (pre ++ m :: post) =
      pre ++ free_into address size m :: post := by
  induction pre with
  | nil =>
    rw [List.nil_append, List.nil_append, internal_free_mem, if_pos hm]
    rfl
  | cons p pre ih =>
    rw [List.cons_append, internal_free_mem, if_neg (hpre p (List.mem_cons_self _ _)),
      ih fun m₀ h₀ => hpre m₀ (List.mem_cons_of_mem p h₀), List.cons_append]

/-! ### The operation sequences of spec §8 as a transition system -/

/-- Ghost world for the operation-sequence claims: the allocator state
together with the list of outstanding (issued, not yet freed) ranges. -/
structure World where
  alloc : Allocator
  outstanding : List FreeNode

/-- The OS guarantee (spec §6): a newly reserved region never overlaps a
region that is still reserved.  Phrased on the chunks an allocation step
appends to the chunk collection. -/
def Fresh (old new : Allocator) : Prop :=
  ∀ m' ∈ new.m_memory.drop old.m_memory.length, ∀ m ∈ old.m_memory,
    m.address + m.size ≤ m'.address ∨ m'.address + m'.size ≤ m.address

/-- One public operation on one Allocator: a successful allocate or
allocate_near call (arbitrary inputs, candidate probes and OS replies),
or the release of one outstanding Allocation (Allocation enforces that
each issued range is freed at most once, so a free operation consumes an
outstanding range). -/
inductive Step : World → World → Prop where
  | alloc_step (w : World) (os : Nat → OSReply) (cands desired : List Nat)
      (size maxd a : Nat) (al' : Allocator) :
      0 < size →
      internal_allocate_near os cands w.alloc desired size maxd = (.ok a, al') →
      Fresh w.alloc al' →
      Step w ⟨al', ⟨a, a + size⟩ :: w.outstanding⟩
  | free_step (w : World) (r : FreeNode) :
      r ∈ w.outstanding →
      Step w ⟨w.alloc.free r.start (r.stop - r.start), w.outstanding.erase r⟩

/-- The freshly created allocator with no outstanding allocations. -/
def initWorld : World := ⟨⟨[]⟩, []⟩

/-- Worlds produced by some sequence of allocate / allocate_near / free
operations on one Allocator created empty. -/
def Reachable (w : World) : Prop := Relation.ReflTransGen Step initWorld w

/-- The allocator invariant: chunks are well formed and pairwise
disjoint, outstanding ranges are nonempty, lie inside a chunk, are
pairwise disjoint and disjoint from every free range, and each chunk is
covered exactly by its free list plus its outstanding ranges. -/
structure Inv (w : World) : Prop where
  wf : ∀ m ∈ w.alloc.m_memory, MemWf m
  pos : ∀ m ∈ w.alloc.m_memory, 0 < m.size
  disj : w.alloc.m_memory.Pairwise MemDisj
  outs_wf : ∀ r ∈ w.outstanding, r.start < r.stop
  outs_in : ∀ r ∈ w.outstanding, ∃ m ∈ w.alloc.m_memory, withinChunk r m
  outs_disj : w.outstanding.Pairwise NodeDisj
  outs_free : ∀ r ∈ w.outstanding, ∀ m ∈ w.alloc.m_memory, ∀ n ∈ m.freelist, NodeDisj r n
  cover : ∀ m ∈ w.alloc.m_memory, ∀ x, inChunk x m ↔
    (coversF m.freelist x ∨ ∃ r, r ∈ w.outstanding ∧ withinChunk r m ∧ inNode x r)

theorem inChunk_geom {x : Nat} {m m' : Memory} (ha : m'.address = m.address)
    (hsz : m'.size = m.size) : inChunk x m' ↔ inChunk x m := by
  simp [inChunk, ha, hsz]

theorem withinChunk_geom {n : FreeNode} {m m' : Memory} (ha : m'.address = m.address)
    (hsz : m'.size = m.size) : withinChunk n m' ↔ withinChunk n m := by
  simp [withinChunk, ha, hsz]

/-- Replacing one chunk by a chunk with the same base and size preserves
pairwise chunk disjointness. -/
theorem pairwise_memdisj_update {pre post : List Memory} {m m' : Memory}
    (ha : m'.address = m.address) (hsz : m'.size = m.size)
    (h : (pre ++ m :: post).Pairwise MemDisj) :
    (pre ++ m' :: post).Pairwise MemDisj := by
  rw [List.pairwise_append] at h ⊢
  obtain ⟨h1, h2, h3⟩ := h
  rw [List.pairwise_cons] at h2 ⊢
  refine ⟨h1, ⟨?_, h2.2⟩, ?_⟩
  · intro b hb x hx1 hx2
    exact h2.1 b hb x ((inChunk_geom ha hsz).mp hx1) hx2
  · intro a ha' b hb
    rcases List.mem_cons.mp hb with rfl | hb
    · intro x hx1 hx2
      exact h3 a ha' m (List.mem_cons_self _ _) x hx1 ((inChunk_geom ha hsz).mp hx2)
    · exact h3 a ha' b (List.mem_cons_of_mem _ hb)

/-- The chunk in the middle of a pairwise-disjoint decomposition is
disjoint from every other chunk. -/
theorem pairwise_extract {pre post : List Memory} {m : Memory}
    (h : (pre ++ m :: post).Pairwise MemDisj) :
    (∀ m₀ ∈ pre, MemDisj m₀ m) ∧ (∀ m₀ ∈ post, MemDisj m m₀) := by
  rw [List.pairwise_append] at h
  obtain ⟨h1, h2, h3⟩ := h
  rw [List.pairwise_cons] at h2
  exact ⟨fun m₀ h₀ => h3 m₀ h₀ m (List.mem_cons_self _ _), h2.1⟩

/-- A well-formed chunk whose free list covers the whole chunk has the
single whole-chunk node as its free list. -/
theorem freelist_full_singleton {m : Memory} (hwf : MemWf m) (hpos : 0 < m.size)
    (hcov : ∀ x, inChunk x m ↔ coversF m.freelist x) :
    m.freelist = [⟨m.address, m.address + m.size⟩] := by
  obtain ⟨hn, hs⟩ := hwf
  rcases hfl : m.freelist with _ | ⟨n₀, rest⟩
  · exfalso
    have h0 := (hcov m.address).mp ⟨le_refl _, by omega⟩
    rw [hfl] at h0
    exact coversF_nil _ h0
  · rw [hfl] at hn hs hcov
    obtain ⟨hhead, htail⟩ := List.pairwise_cons.mp hs
    -- the head node starts at the chunk base
    have hstart : n₀.start = m.address := by
      obtain ⟨n, hnm, hx1, hx2⟩ := (hcov m.address).mp ⟨le_refl _, by omega⟩
      rcases List.mem_cons.mp hnm with rfl | hnm
      · have := (hn n (List.mem_cons_self _ _)).2.1
        omega
      · exfalso
        have h1 := hhead n hnm
        have h2 := (hn n₀ (List.mem_cons_self _ _)).1
        have h3 := (hn n₀ (List.mem_cons_self _ _)).2.1
        omega
    -- the head node reaches the end of the chunk
    have hstop : n₀.stop = m.address + m.size := by
      have hub := (hn n₀ (List.mem_cons_self _ _)).2.2
      by_contra hne2
      have hin : inChunk n₀.stop m := by
        have := (hn n₀ (List.mem_cons_self _ _)).1
        exact ⟨by omega, by omega⟩
      obtain ⟨n, hnm, hx1, hx2⟩ := (hcov n₀.stop).mp hin
      rcases List.mem_cons.mp hnm with rfl | hnm
      · omega
      · have := hhead n hnm
        omega
    -- no second node fits after the head
    rcases hrest : rest with _ | ⟨n₁, rest₂⟩
    · have he : n₀ = ⟨m.address, m.address + m.size⟩ := by
        rcases n₀ with ⟨s, t⟩
        simp only [FreeNode.mk.injEq]
        exact ⟨hstart, hstop⟩
      rw [he]
    · exfalso
      rw [hrest] at hhead htail hn
      have h1 := hhead n₁ (List.mem_cons_self _ _)
      have h2 := (hn n₁ (List.mem_cons_of_mem n₀ (List.mem_cons_self _ _))).1
      have h3 := (hn n₁ (List.mem_cons_of_mem n₀ (List.mem_cons_self _ _))).2.2
      omega

end SafetyHook

namespace SafetyHook

/-- Carving a range out of one chunk's free list preserves the
invariant, with the carved range added to the outstanding ranges. -/
theorem inv_carve {al : Allocator} {outs : List FreeNode}
    (hw : Inv ⟨al, outs⟩)
    {pre post : List Memory} {m : Memory} {fl' : List FreeNode}
    {desired : List Nat} {size maxd a : Nat}
    (hmem : al.m_memory = pre ++ m :: post) (hposz : 0 < size)
    (hc : carve_node size desired maxd m.freelist = some (a, fl')) :
    Inv ⟨⟨pre ++ { m with freelist := fl' } :: post⟩, ⟨a, a + size⟩ :: outs⟩ := by
  have hm_mem : m ∈ al.m_memory := by
    rw [hmem]; exact List.mem_append.mpr (Or.inr (List.mem_cons_self _ _))
  have hwfm := hw.wf m hm_mem
  have hne : ∀ n ∈ m.freelist, n.start < n.stop := fun n hn => (hwfm.1 n hn).1
  have hbound : ∀ n ∈ m.freelist, withinChunk n m := fun n hn => (hwfm.1 n hn).2
  have hsort : FLsorted m.freelist := hwfm.2
  obtain ⟨n₀, hn₀, hn₀s, hn₀e⟩ := carve_node_within hc
  have hb₀ := hbound n₀ hn₀
  have hrwm : withinChunk ⟨a, a + size⟩ m := by
    obtain ⟨hb1, hb2⟩ := hb₀
    show m.address ≤ a ∧ a + size ≤ m.address + m.size
    omega
  have hasz : a < a + size := by omega
  have hcov := carve_node_cover hc
  have hexcl := carve_node_excl hne hsort hc
  have hsub := carve_node_sub hc
  have hne' := carve_node_nonempty hne hc
  have hsort' := carve_node_sorted hsort hc
  have hdisj := hw.disj
  rw [hmem] at hdisj
  obtain ⟨hdpre, hdpost⟩ := pairwise_extract hdisj
  have hmpre : ∀ m₁ ∈ pre, m₁ ∈ al.m_memory := fun m₁ h₁ => by
    rw [hmem]; exact List.mem_append_left _ h₁
  have hmpost : ∀ m₁ ∈ post, m₁ ∈ al.m_memory := fun m₁ h₁ => by
    rw [hmem]; exact List.mem_append_right _ (List.mem_cons_of_mem _ h₁)
  -- any point of the carved range lies in chunk m
  have hnew_in : ∀ x, inNode x ⟨a, a + size⟩ → inChunk x m := by
    intro x hx
    have hx1 : a ≤ x := hx.1
    have hx2 : x < a + size := hx.2
    have hb1 : m.address ≤ a := hrwm.1
    have hb2 : a + size ≤ m.address + m.size := hrwm.2
    exact ⟨by omega, by omega⟩
  -- a chunk other than m cannot host the carved range
  have hnew_only : ∀ m₁, MemDisj m₁ m → withinChunk ⟨a, a + size⟩ m₁ → False := by
    intro m₁ hd hwn
    have hb1 : m₁.address ≤ a := hwn.1
    have hb2 : a + size ≤ m₁.address + m₁.size := hwn.2
    have h1 : inChunk a m₁ := ⟨hb1, by omega⟩
    have h2 : inChunk a m := hnew_in a ⟨le_refl _, hasz⟩
    exact hd a h1 h2
  constructor
  · -- wf
    intro m₁ h₁
    rcases List.mem_append.mp h₁ with h₁ | h₁
    · exact hw.wf m₁ (hmpre m₁ h₁)
    · rcases List.mem_cons.mp h₁ with rfl | h₁
      · refine ⟨fun n hn => ⟨hne' n hn, ?_⟩, hsort'⟩
        obtain ⟨n₁, hn₁, hs1, hs2⟩ := hsub n hn
        obtain ⟨hb1, hb2⟩ := hbound n₁ hn₁
        show m.address ≤ n.start ∧ n.stop ≤ m.address + m.size
        omega
      · exact hw.wf m₁ (hmpost m₁ h₁)
  · -- pos
    intro m₁ h₁
    rcases List.mem_append.mp h₁ with h₁ | h₁
    · exact hw.pos m₁ (hmpre m₁ h₁)
    · rcases List.mem_cons.mp h₁ with rfl | h₁
      · exact hw.pos m hm_mem
      · exact hw.pos m₁ (hmpost m₁ h₁)
  · -- disj
    exact pairwise_memdisj_update
      (show ({ m with freelist := fl' } : Memory).address = m.address from rfl)
      (show ({ m with freelist := fl' } : Memory).size = m.size from rfl) hdisj
  · -- outs_wf
    intro r hr
    rcases List.mem_cons.mp hr with rfl | hr
    · show a < a + size
      omega
    · exact hw.outs_wf r hr
  · -- outs_in
    intro r hr
    rcases List.mem_cons.mp hr with rfl | hr
    · exact ⟨{ m with freelist := fl' },
        List.mem_append.mpr (Or.inr (List.mem_cons_self _ _)), hrwm⟩
    · obtain ⟨m₂, hm₂, hwm₂⟩ := hw.outs_in r hr
      rw [hmem] at hm₂
      rcases List.mem_append.mp hm₂ with h₂ | h₂
      · exact ⟨m₂, List.mem_append_left _ h₂, hwm₂⟩
      · rcases List.mem_cons.mp h₂ with rfl | h₂
        · exact ⟨{ m₂ with freelist := fl' },
            List.mem_append.mpr (Or.inr (List.mem_cons_self _ _)), hwm₂⟩
        · exact ⟨m₂, List.mem_append.mpr (Or.inr (List.mem_cons_of_mem _ h₂)), hwm₂⟩
  · -- outs_disj
    refine List.pairwise_cons.mpr ⟨?_, hw.outs_disj⟩
    intro s hs x hx hxs
    have hcf : coversF m.freelist x := (hcov x).mpr (Or.inr ⟨hx.1, hx.2⟩)
    obtain ⟨n, hn, hxn⟩ := hcf
    exact hw.outs_free s hs m hm_mem n hn x hxs hxn
  · -- outs_free
    intro r hr m₁ h₁ n hn
    rcases List.mem_cons.mp hr with rfl | hr
    · rcases List.mem_append.mp h₁ with h₁ | h₁
      · intro x hxr hxn
        have hx1 : inChunk x m := hnew_in x hxr
        have hwn := (hw.wf m₁ (hmpre m₁ h₁)).1 n hn
        have hx2 : inChunk x m₁ := by
          obtain ⟨hb1, hb2⟩ := hwn.2
          obtain ⟨hxa, hxb⟩ := hxn
          exact ⟨by omega, by omega⟩
        exact (hdpre m₁ h₁) x hx2 hx1
      · rcases List.mem_cons.mp h₁ with rfl | h₁
        · intro x hxr hxn
          exact hexcl x ⟨n, hn, hxn⟩ hxr.1 hxr.2
        · intro x hxr hxn
          have hx1 : inChunk x m := hnew_in x hxr
          have hwn := (hw.wf m₁ (hmpost m₁ h₁)).1 n hn
          have hx2 : inChunk x m₁ := by
            obtain ⟨hb1, hb2⟩ := hwn.2
            obtain ⟨hxa, hxb⟩ := hxn
            exact ⟨by omega, by omega⟩
          exact (hdpost m₁ h₁) x hx1 hx2
    · rcases List.mem_append.mp h₁ with h₁ | h₁
      · exact hw.outs_free r hr m₁ (hmpre m₁ h₁) n hn
      · rcases List.mem_cons.mp h₁ with rfl | h₁
        · intro x hxr hxn
          obtain ⟨n₁, hn₁, hs1, hs2⟩ := hsub n hn
          have hxn₁ : inNode x n₁ := by
            obtain ⟨hxa, hxb⟩ := hxn
            exact ⟨by omega, by omega⟩
          exact hw.outs_free r hr m hm_mem n₁ hn₁ x hxr hxn₁
        · exact hw.outs_free r hr m₁ (hmpost m₁ h₁) n hn
  · -- cover
    intro m₁ h₁ x
    rcases List.mem_append.mp h₁ with h₁ | h₁
    · -- untouched chunk in pre
      rw [hw.cover m₁ (hmpre m₁ h₁) x]
      constructor
      · rintro (hcf | ⟨r, hr, hwr, hxr⟩)
        · exact Or.inl hcf
        · exact Or.inr ⟨r, List.mem_cons_of_mem _ hr, hwr, hxr⟩
      · rintro (hcf | ⟨r, hr, hwr, hxr⟩)
        · exact Or.inl hcf
        · rcases List.mem_cons.mp hr with rfl | hr
          · exact absurd hwr fun hwr => hnew_only m₁ (hdpre m₁ h₁) hwr
          · exact Or.inr ⟨r, hr, hwr, hxr⟩
    · rcases List.mem_cons.mp h₁ with rfl | h₁
      · -- the carved chunk
        have hgeo : inChunk x ({ m with freelist := fl' }) ↔ inChunk x m := Iff.rfl
        rw [hgeo, hw.cover m hm_mem x]
        constructor
        · rintro (hcf | ⟨r, hr, hwr, hxr⟩)
          · rcases (hcov x).mp hcf with hcf' | hcar
            · exact Or.inl hcf'
            · exact Or.inr ⟨⟨a, a + size⟩, List.mem_cons_self _ _, hrwm, hcar.1, hcar.2⟩
          · exact Or.inr ⟨r, List.mem_cons_of_mem _ hr, hwr, hxr⟩
        · rintro (hcf | ⟨r, hr, hwr, hxr⟩)
          · exact Or.inl ((hcov x).mpr (Or.inl hcf))
          · rcases List.mem_cons.mp hr with rfl | hr
            · exact Or.inl ((hcov x).mpr (Or.inr ⟨hxr.1, hxr.2⟩))
            · exact Or.inr ⟨r, hr, hwr, hxr⟩
      · -- untouched chunk in post
        rw [hw.cover m₁ (hmpost m₁ h₁) x]
        constructor
        · rintro (hcf | ⟨r, hr, hwr, hxr⟩)
          · exact Or.inl hcf
          · exact Or.inr ⟨r, List.mem_cons_of_mem _ hr, hwr, hxr⟩
        · rintro (hcf | ⟨r, hr, hwr, hxr⟩)
          · exact Or.inl hcf
          · rcases List.mem_cons.mp hr with rfl | hr
            · exact absurd hwr fun hwr =>
                hnew_only m₁ (MemDisj_symm (hdpost m₁ h₁)) hwr
            · exact Or.inr ⟨r, hr, hwr, hxr⟩

end SafetyHook

namespace SafetyHook

/-- Appending a freshly reserved, fully free chunk that does not overlap
any existing chunk preserves the invariant. -/
theorem inv_extend {al : Allocator} {outs : List FreeNode} (hw : Inv ⟨al, outs⟩)
    {base csize : Nat} (hcs : 0 < csize)
    (hfresh : ∀ m ∈ al.m_memory, m.address + m.size ≤ base ∨ base + csize ≤ m.address) :
    Inv ⟨⟨al.m_memory ++ [⟨base, csize, [⟨base, base + csize⟩]⟩]⟩, outs⟩ := by
  have hnd : ∀ m ∈ al.m_memory, MemDisj m ⟨base, csize, [⟨base, base + csize⟩]⟩ := by
    intro m hm x hx1 hx2
    have h1 : base ≤ x := hx2.1
    have h2 : x < base + csize := hx2.2
    have h3 := hx1.1
    have h4 := hx1.2
    rcases hfresh m hm with h | h <;> omega
  have hwfn : MemWf ⟨base, csize, [⟨base, base + csize⟩]⟩ := by
    constructor
    · intro n hn
      rcases List.mem_cons.mp hn with rfl | hn
      · refine ⟨?_, ?_⟩
        · show base < base + csize
          omega
        · show base ≤ base ∧ base + csize ≤ base + csize
          omega
      · exact absurd hn (List.not_mem_nil n)
    · show FLsorted [(⟨base, base + csize⟩ : FreeNode)]
      simp [FLsorted]
  constructor
  · intro m₁ h₁
    rcases List.mem_append.mp h₁ with h₁ | h₁
    · exact hw.wf m₁ h₁
    · rcases List.mem_cons.mp h₁ with rfl | h₁
      · exact hwfn
      · exact absurd h₁ (List.not_mem_nil m₁)
  · intro m₁ h₁
    rcases List.mem_append.mp h₁ with h₁ | h₁
    · exact hw.pos m₁ h₁
    · rcases List.mem_cons.mp h₁ with rfl | h₁
      · exact hcs
      · exact absurd h₁ (List.not_mem_nil m₁)
  · rw [List.pairwise_append]
    refine ⟨hw.disj, List.pairwise_singleton _ _, ?_⟩
    intro m₁ h₁ m₂ h₂
    rcases List.mem_cons.mp h₂ with rfl | h₂
    · exact hnd m₁ h₁
    · exact absurd h₂ (List.not_mem_nil m₂)
  · exact hw.outs_wf
  · intro r hr
    obtain ⟨m₂, hm₂, hwm₂⟩ := hw.outs_in r hr
    exact ⟨m₂, List.mem_append_left _ hm₂, hwm₂⟩
  · exact hw.outs_disj
  · intro r hr m₁ h₁ n hn
    rcases List.mem_append.mp h₁ with h₁ | h₁
    · exact hw.outs_free r hr m₁ h₁ n hn
    · rcases List.mem_cons.mp h₁ with rfl | h₁
      · intro x hxr hxn
        obtain ⟨m₂, hm₂, hwm₂⟩ := hw.outs_in r hr
        have hrwf := hw.outs_wf r hr
        have hx2 : inChunk x m₂ := by
          obtain ⟨hb1, hb2⟩ := hwm₂
          obtain ⟨hxa, hxb⟩ := hxr
          exact ⟨by omega, by omega⟩
        rcases List.mem_cons.mp hn with rfl | hn
        · have hb1 : base ≤ x := hxn.1
          have hb2 : x < base + csize := hxn.2
          exact hnd m₂ hm₂ x hx2 ⟨hb1, hb2⟩
        · exact absurd hn (List.not_mem_nil n)
      · exact absurd h₁ (List.not_mem_nil m₁)
  · intro m₁ h₁ x
    rcases List.mem_append.mp h₁ with h₁ | h₁
    · exact hw.cover m₁ h₁ x
    · rcases List.mem_cons.mp h₁ with rfl | h₁
      · constructor
        · intro hx
          have hb1 : base ≤ x := hx.1
          have hb2 : x < base + csize := hx.2
          exact Or.inl ⟨⟨base, base + csize⟩, List.mem_cons_self _ _, hb1, hb2⟩
        · rintro (⟨n, hn, hxn⟩ | ⟨r, hr, hwr, hxr⟩)
          · rcases List.mem_cons.mp hn with rfl | hn
            · exact ⟨hxn.1, hxn.2⟩
            · exact absurd hn (List.not_mem_nil n)
          · exfalso
            obtain ⟨m₂, hm₂, hwm₂⟩ := hw.outs_in r hr
            have hrwf := hw.outs_wf r hr
            have hc2 : inChunk r.start m₂ := by
              obtain ⟨hb1, hb2⟩ := hwm₂
              exact ⟨by omega, by omega⟩
            have hb1 : base ≤ r.start := hwr.1
            have hb2 : r.stop ≤ base + csize := hwr.2
            refine hnd m₂ hm₂ r.start hc2 ?_
            show base ≤ r.start ∧ r.start < base + csize
            omega
      · exact absurd h₁ (List.not_mem_nil m₁)

/-- Freeing one outstanding range back into the allocator preserves the
invariant. -/
theorem inv_free {al : Allocator} {outs : List FreeNode} (hw : Inv ⟨al, outs⟩)
    {r : FreeNode} (hr : r ∈ outs) :
    Inv ⟨al.free r.start (r.stop - r.start), outs.erase r⟩ := by
  have hrwf : r.start < r.stop := hw.outs_wf r hr
  have hsz : r.start + (r.stop - r.start) = r.stop := by omega
  obtain ⟨m, hm, hwm⟩ := hw.outs_in r hr
  obtain ⟨pre, post, hmem⟩ := List.append_of_mem hm
  have hdisj := hw.disj
  rw [hmem] at hdisj
  obtain ⟨hdpre, hdpost⟩ := pairwise_extract hdisj
  have hmpre : ∀ m₁ ∈ pre, m₁ ∈ al.m_memory := fun m₁ h₁ => by
    rw [hmem]; exact List.mem_append_left _ h₁
  have hmpost : ∀ m₁ ∈ post, m₁ ∈ al.m_memory := fun m₁ h₁ => by
    rw [hmem]; exact List.mem_append_right _ (List.mem_cons_of_mem _ h₁)
  -- no chunk other than m can contain the freed range
  have hr_only : ∀ m₁, MemDisj m₁ m → withinChunk r m₁ → False := by
    intro m₁ hd hwr
    have h1 : inChunk r.start m₁ := ⟨hwr.1, by have := hwr.2; omega⟩
    have h2 : inChunk r.start m := ⟨hwm.1, by have := hwm.2; omega⟩
    exact hd r.start h1 h2
  have hcondm : m.address ≤ r.start ∧ r.start + (r.stop - r.start) ≤ m.address + m.size := by
    obtain ⟨h1, h2⟩ := hwm
    exact ⟨h1, by omega⟩
  have hprec : ∀ m₀ ∈ pre,
      ¬ (m₀.address ≤ r.start ∧ r.start + (r.stop - r.start) ≤ m₀.address + m₀.size) := by
    intro m₀ h₀ ⟨h1, h2⟩
    exact hr_only m₀ (hdpre m₀ h₀) ⟨h1, by omega⟩
  have heq : al.free r.start (r.stop - r.start) =
      ⟨pre ++ free_into r.start (r.stop - r.start) m :: post⟩ := by
    show Allocator.mk (internal_free_mem r.start (r.stop - r.start) al.m_memory) = _
    rw [hmem, internal_free_mem_eq hprec hcondm]
  rw [heq]
  -- facts about the updated chunk
  have hwfm := hw.wf m hm
  have hne : ∀ n ∈ m.freelist, n.start < n.stop := fun n hn => (hwfm.1 n hn).1
  have hbound : ∀ n ∈ m.freelist, withinChunk n m := fun n hn => (hwfm.1 n hn).2
  have hsort : FLsorted m.freelist := hwfm.2
  have hd : ∀ n ∈ m.freelist, r.stop ≤ n.start ∨ n.stop ≤ r.start := fun n hn =>
    NodeDisj.ordered hrwf (hne n hn) (hw.outs_free r hr m hm n hn)
  have hins_ne : ∀ n ∈ insert_freenode r m.freelist, n.start < n.stop := by
    intro n hn
    rcases insert_freenode_mem.mp hn with rfl | hn
    · exact hrwf
    · exact hne n hn
  have hins_sorted := insert_freenode_sorted hne hrwf hsort hd
  obtain ⟨hfl2ne, hfl2sorted⟩ := combine_wf hins_ne hins_sorted
  have hfl2cov : ∀ x, coversF (combine_adjacent_freenodes (insert_freenode r m.freelist)) x ↔
      inNode x r ∨ coversF m.freelist x := by
    intro x
    rw [combine_cover hins_ne hins_sorted, insert_freenode_cover]
  have hfl2b : ∀ n ∈ combine_adjacent_freenodes (insert_freenode r m.freelist),
      m.address ≤ n.start ∧ n.stop ≤ m.address + m.size := by
    refine combine_bounds ?_
    intro n hn
    rcases insert_freenode_mem.mp hn with rfl | hn
    · exact hwm
    · exact hbound n hn
  have hfl : (free_into r.start (r.stop - r.start) m).freelist =
      combine_adjacent_freenodes (insert_freenode r m.freelist) := by
    show combine_adjacent_freenodes
      (insert_freenode ⟨r.start, r.start + (r.stop - r.start)⟩ m.freelist) = _
    rw [hsz]
  -- bookkeeping on the outstanding list
  have hnodup : outs.Nodup := by
    refine List.Pairwise.imp_of_mem ?_ hw.outs_disj
    intro a b ha hb hab hEq
    subst hEq
    have haw := hw.outs_wf a ha
    exact hab a.start ⟨le_refl _, haw⟩ ⟨le_refl _, haw⟩
  have hmem_erase : ∀ s, s ∈ outs.erase r ↔ s ≠ r ∧ s ∈ outs := fun s =>
    List.Nodup.mem_erase_iff hnodup
  have hpd : ∀ s ∈ outs, s ≠ r → NodeDisj r s := by
    intro s hs hne₂
    exact List.Pairwise.forall (fun a b h => NodeDisj_symm h) hw.outs_disj hr hs
      (fun hEq => hne₂ hEq.symm)
  constructor
  · -- wf
    intro m₁ h₁
    rcases List.mem_append.mp h₁ with h₁ | h₁
    · exact hw.wf m₁ (hmpre m₁ h₁)
    · rcases List.mem_cons.mp h₁ with rfl | h₁
      · constructor
        · intro n hn
          rw [hfl] at hn
          refine ⟨hfl2ne n hn, ?_⟩
          have := hfl2b n hn
          exact this
        · show FLsorted (free_into r.start (r.stop - r.start) m).freelist
          rw [hfl]
          exact hfl2sorted
      · exact hw.wf m₁ (hmpost m₁ h₁)
  · -- pos
    intro m₁ h₁
    rcases List.mem_append.mp h₁ with h₁ | h₁
    · exact hw.pos m₁ (hmpre m₁ h₁)
    · rcases List.mem_cons.mp h₁ with rfl | h₁
      · exact hw.pos m hm
      · exact hw.pos m₁ (hmpost m₁ h₁)
  · -- disj
    exact pairwise_memdisj_update
      (show (free_into r.start (r.stop - r.start) m).address = m.address from rfl)
      (show (free_into r.start (r.stop - r.start) m).size = m.size from rfl) hdisj
  · -- outs_wf
    intro s hs
    exact hw.outs_wf s (List.mem_of_mem_erase hs)
  · -- outs_in
    intro s hs
    obtain ⟨m₂, hm₂, hwm₂⟩ := hw.outs_in s (List.mem_of_mem_erase hs)
    rw [hmem] at hm₂
    rcases List.mem_append.mp hm₂ with h₂ | h₂
    · exact ⟨m₂, List.mem_append_left _ h₂, hwm₂⟩
    · rcases List.mem_cons.mp h₂ with rfl | h₂
      · exact ⟨free_into r.start (r.stop - r.start) m₂,
          List.mem_append.mpr (Or.inr (List.mem_cons_self _ _)), hwm₂⟩
      · exact ⟨m₂, List.mem_append.mpr (Or.inr (List.mem_cons_of_mem _ h₂)), hwm₂⟩
  · -- outs_disj
    exact List.Pairwise.sublist (List.erase_sublist r outs) hw.outs_disj
  · -- outs_free
    intro s hs m₁ h₁ n hn
    have hs' := List.mem_of_mem_erase hs
    rcases List.mem_append.mp h₁ with h₁ | h₁
    · exact hw.outs_free s hs' m₁ (hmpre m₁ h₁) n hn
    · rcases List.mem_cons.mp h₁ with rfl | h₁
      · rw [hfl] at hn
        intro x hxs hxn
        rcases (hfl2cov x).mp ⟨n, hn, hxn⟩ with hxr | ⟨n₀, hn₀, hxn₀⟩
        · have hsr : s ≠ r := ((hmem_erase s).mp hs).1
          exact hpd s hs' hsr x hxr hxs
        · exact hw.outs_free s hs' m hm n₀ hn₀ x hxs hxn₀
      · exact hw.outs_free s hs' m₁ (hmpost m₁ h₁) n hn
  · -- cover
    intro m₁ h₁ x
    rcases List.mem_append.mp h₁ with h₁ | h₁
    · rw [hw.cover m₁ (hmpre m₁ h₁) x]
      constructor
      · rintro (hcf | ⟨s, hs, hws, hxs⟩)
        · exact Or.inl hcf
        · by_cases hsr : s = r
          · exact absurd (hsr ▸ hws) fun hwr => hr_only m₁ (hdpre m₁ h₁) hwr
          · exact Or.inr ⟨s, (hmem_erase s).mpr ⟨hsr, hs⟩, hws, hxs⟩
      · rintro (hcf | ⟨s, hs, hws, hxs⟩)
        · exact Or.inl hcf
        · exact Or.inr ⟨s, List.mem_of_mem_erase hs, hws, hxs⟩
    · rcases List.mem_cons.mp h₁ with rfl | h₁
      · -- the chunk that received the freed range
        have hgeo : inChunk x (free_into r.start (r.stop - r.start) m) ↔ inChunk x m := Iff.rfl
        rw [hgeo, hw.cover m hm x]
        constructor
        · rintro (hcf | ⟨s, hs, hws, hxs⟩)
          · refine Or.inl ?_
            show coversF (free_into r.start (r.stop - r.start) m).freelist x
            rw [hfl]
            exact (hfl2cov x).mpr (Or.inr hcf)
          · by_cases hsr : s = r
            · refine Or.inl ?_
              show coversF (free_into r.start (r.stop - r.start) m).freelist x
              rw [hfl]
              exact (hfl2cov x).mpr (Or.inl (hsr ▸ hxs))
            · exact Or.inr ⟨s, (hmem_erase s).mpr ⟨hsr, hs⟩, hws, hxs⟩
        · rintro (hcf | ⟨s, hs, hws, hxs⟩)
          · rw [show coversF (free_into r.start (r.stop - r.start) m).freelist x =
              coversF (combine_adjacent_freenodes (insert_freenode r m.freelist)) x
              from congrArg (fun l => coversF l x) hfl] at hcf
            rcases (hfl2cov x).mp hcf with hxr | hcf'
            · exact Or.inr ⟨r, hr, hwm, hxr⟩
            · exact Or.inl hcf'
          · exact Or.inr ⟨s, List.mem_of_mem_erase hs, hws, hxs⟩
      · rw [hw.cover m₁ (hmpost m₁ h₁) x]
        constructor
        · rintro (hcf | ⟨s, hs, hws, hxs⟩)
          · exact Or.inl hcf
          · by_cases hsr : s = r
            · exact absurd (hsr ▸ hws) fun hwr =>
                hr_only m₁ (MemDisj_symm (hdpost m₁ h₁)) hwr
            · exact Or.inr ⟨s, (hmem_erase s).mpr ⟨hsr, hs⟩, hws, hxs⟩
        · rintro (hcf | ⟨s, hs, hws, hxs⟩)
          · exact Or.inl hcf
          · exact Or.inr ⟨s, List.mem_of_mem_erase hs, hws, hxs⟩

end SafetyHook

namespace SafetyHook

/-- The empty allocator satisfies the invariant. -/
theorem inv_init : Inv initWorld := by
  constructor <;>
    first
      | exact fun m hm => absurd hm (List.not_mem_nil m)
      | exact List.Pairwise.nil

/-- Every operation preserves the invariant. -/
theorem inv_step {w w' : World} (hw : Inv w) (hstep : Step w w') : Inv w' := by
  cases hstep with
  | alloc_step os cands desired size maxd a al' hpos heq hfresh =>
    unfold internal_allocate_near at heq
    split at heq
    · -- carve from an existing chunk
      rename_i a₀ mems' hcc
      simp only [Prod.mk.injEq, Except.ok.injEq] at heq
      obtain ⟨rfl, rfl⟩ := heq
      obtain ⟨pre, m, post, fl', h1, h2, h3⟩ := carve_chunks_eq hcc
      rw [h2]
      exact inv_carve hw h1 hpos h3
    · -- no existing chunk fits: a fresh chunk is reserved and carved
      rename_i hcc
      split at heq
      · simp at heq
      · rename_i base hnb
        split at heq
        · rename_i a₁ fl' hcn
          simp only [Prod.mk.injEq, Except.ok.injEq] at heq
          obtain ⟨rfl, rfl⟩ := heq
          have hdrop : (w.alloc.m_memory ++
              [(⟨base, chunk_size_for size, fl'⟩ : Memory)]).drop w.alloc.m_memory.length =
              [⟨base, chunk_size_for size, fl'⟩] := List.drop_left _ _
          have hf : ∀ m ∈ w.alloc.m_memory,
              m.address + m.size ≤ base ∨ base + chunk_size_for size ≤ m.address := by
            intro m hm
            have h := hfresh ⟨base, chunk_size_for size, fl'⟩
              (by rw [hdrop]; exact List.mem_cons_self _ _) m hm
            exact h
          have hcs : 0 < chunk_size_for size :=
            lt_of_lt_of_le (by decide)
              (Nat.le_max_right size default_chunk_size)
          exact inv_carve (inv_extend hw hcs hf) rfl hpos hcn
        · simp at heq
  | free_step r hrmem =>
    exact inv_free hw hrmem

/-- Every reachable world satisfies the invariant. -/
theorem reachable_inv {w : World} (h : Reachable w) : Inv w := by
  induction h with
  | refl => exact inv_init
  | tail h1 h2 ih => exact inv_step ih h2

end SafetyHook

namespace SafetyHook

/-! ### Helper results for the claim theorems -/

/-- A successful internal_allocate_near returns an address that passed
the in_range test. -/
theorem internal_allocate_near_ok_in_range {os : Nat → OSReply} {cands : List Nat}
    {al al' : Allocator} {desired : List Nat} {size maxd a : Nat}
    (h : internal_allocate_near os cands al desired size maxd = (.ok a, al')) :
    in_range a desired maxd = true := by
  unfold internal_allocate_near at h
  split at h
  · rename_i a₀ mems' hcc
    simp only [Prod.mk.injEq, Except.ok.injEq] at h
    obtain ⟨rfl, rfl⟩ := h
    obtain ⟨pre, m, post, fl', h1, h2, h3⟩ := carve_chunks_eq hcc
    exact carve_node_in_range h3
  · split at h
    · simp at h
    · split at h
      · rename_i a₁ fl' hcn
        simp only [Prod.mk.injEq, Except.ok.injEq] at h
        obtain ⟨rfl, rfl⟩ := h
        exact carve_node_in_range hcn
      · simp at h

/-- Both error values name themselves. -/
theorem error_cases (e : Error) :
    e = Error.BAD_VIRTUAL_ALLOC ∨ e = Error.NO_MEMORY_IN_RANGE := by
  cases e
  · exact Or.inl rfl
  · exact Or.inr rfl

/-- A failing internal_allocate_near reports one of the two Error values
and returns the allocator state unchanged. -/
theorem internal_allocate_near_error {os : Nat → OSReply} {cands : List Nat}
    {al al' : Allocator} {desired : List Nat} {size maxd : Nat} {e : Error}
    (h : internal_allocate_near os cands al desired size maxd = (.error e, al')) :
    (e = Error.BAD_VIRTUAL_ALLOC ∨ e = Error.NO_MEMORY_IN_RANGE) ∧ al' = al := by
  unfold internal_allocate_near at h
  split at h
  · simp at h
  · split at h
    · simp only [Prod.mk.injEq, Except.error.injEq] at h
      obtain ⟨rfl, rfl⟩ := h
      exact ⟨error_cases _, rfl⟩
    · split at h
      · simp at h
      · simp only [Prod.mk.injEq, Except.error.injEq] at h
        obtain ⟨rfl, rfl⟩ := h
        exact ⟨error_cases _, rfl⟩

/-- A strictly sorted list of nonempty ranges has no adjacent pair in
any order. -/
theorem flsorted_no_adjacent {l : List FreeNode} (hne : ∀ n ∈ l, n.start < n.stop)
    (hs : FLsorted l) : ∀ p ∈ l, ∀ q ∈ l, p.stop ≠ q.start := by
  induction l with
  | nil => simp
  | cons a rest ih =>
    obtain ⟨hhead, htail⟩ := List.pairwise_cons.mp hs
    intro p hp q hq
    rcases List.mem_cons.mp hp with hpa | hp2 <;> rcases List.mem_cons.mp hq with hqa | hq2
    · rw [hpa, hqa]
      have h := hne a (List.mem_cons_self _ _)
      omega
    · rw [hpa]
      have h := hhead q hq2
      omega
    · rw [hqa]
      have h1 := hhead p hp2
      have h2 := hne a (List.mem_cons_self _ _)
      have h3 := hne p (List.mem_cons_of_mem a hp2)
      omega
    · exact ih (fun n hn => hne n (List.mem_cons_of_mem a hn)) htail p hp2 q hq2

/-- One allocation step from the empty allocator (used as a concrete
reachable world). -/
theorem step1 : Step initWorld ⟨⟨[⟨4096, 65536, [⟨4160, 69632⟩]⟩]⟩, [⟨4096, 4160⟩]⟩ := by
  have h := Step.alloc_step initWorld (fun _ => OSReply.granted) [4096] [] 64 1000 4096
    ⟨[⟨4096, 65536, [⟨4160, 69632⟩]⟩]⟩ (by decide) rfl
    (fun m' h1 m h2 => absurd h2 (List.not_mem_nil m))
  exact h

/-- Freeing the single outstanding range of the world after step1. -/
theorem step2 : Step ⟨⟨[⟨4096, 65536, [⟨4160, 69632⟩]⟩]⟩, [⟨4096, 4160⟩]⟩
    ⟨⟨[⟨4096, 65536, [⟨4096, 69632⟩]⟩]⟩, []⟩ := by
  have h := Step.free_step ⟨⟨[⟨4096, 65536, [⟨4160, 69632⟩]⟩]⟩, [⟨4096, 4160⟩]⟩
    ⟨4096, 4160⟩ (List.mem_cons_self _ _)
  exact h

end SafetyHook

namespace SafetyHook

/-! ### Claim theorems -/

/-- C1 (counterexample): the claim as stated is false.  From the empty
allocator, allocate(64) reserves the chunk [4096, 69632) and returns
[4096, 4160); a following allocate_near([4160], 256, 16) succeeds with
address 4160 because only the start address is checked against the
desired addresses, yet the last byte 4415 of the returned range
[4160, 4416) is at distance 255 > 16 from the desired address 4160, so
the entire returned range does not lie within max_distance of every
desired address. -/
theorem C1_entire_range_counterexample :
    Allocator.allocate (fun _ => OSReply.granted) [4096] ⟨[]⟩ 64
      = (.ok 4096, ⟨[⟨4096, 65536, [⟨4160, 69632⟩]⟩]⟩) ∧
    Allocator.allocate_near (fun _ => OSReply.refused) []
      ⟨[⟨4096, 65536, [⟨4160, 69632⟩]⟩]⟩ [4160] 256 16
      = (.ok 4160, ⟨[⟨4096, 65536, [⟨4416, 69632⟩]⟩]⟩) ∧
    4160 ≤ 4160 + 256 - 1 ∧ 4160 + 256 - 1 < 4160 + 256 ∧
    ¬ (natDist (4160 + 256 - 1) 4160 ≤ 16) :=
  ⟨rfl, rfl, by decide, by decide, by decide⟩

/-- C1 (amended): for every successful call to allocate_near, the
returned start address satisfies |result.address() - d| <= max_distance
for every desired address d; the bound need not extend to the rest of
the returned range. -/
theorem C1_allocate_near_proximity {os : Nat → OSReply} {cands : List Nat}
    {al al' : Allocator} {desired : List Nat} {size maxd a : Nat}
    (h : Allocator.allocate_near os cands al desired size maxd = (.ok a, al')) :
    ∀ d ∈ desired, natDist a d ≤ maxd :=
  in_range_iff.mp (internal_allocate_near_ok_in_range h)

/-- C1 (witness): a concrete successful allocate_near call and its
proximity bound. -/
theorem C1_proximity_witness :
    Allocator.allocate_near (fun _ => OSReply.refused) []
      ⟨[⟨4096, 65536, [⟨4160, 69632⟩]⟩]⟩ [4160] 256 16
      = (.ok 4160, ⟨[⟨4096, 65536, [⟨4416, 69632⟩]⟩]⟩) ∧
    (∀ d ∈ [4160], natDist 4160 d ≤ 16) :=
  ⟨rfl, @C1_allocate_near_proximity (fun _ => OSReply.refused) []
    ⟨[⟨4096, 65536, [⟨4160, 69632⟩]⟩]⟩ ⟨[⟨4096, 65536, [⟨4416, 69632⟩]⟩]⟩
    [4160] 256 16 4160 rfl⟩

/-- C2: in every world reachable by a sequence of allocate,
allocate_near and free operations, the outstanding ranges are pairwise
non-overlapping, no outstanding range overlaps any range of any chunk's
free list, and every chunk's free list consists of pairwise
non-overlapping sub-ranges of [base, base+size) with start < end. -/
theorem C2_disjointness {w : World} (h : Reachable w) :
    w.outstanding.Pairwise NodeDisj ∧
    (∀ r ∈ w.outstanding, ∀ m ∈ w.alloc.m_memory, ∀ n ∈ m.freelist, NodeDisj r n) ∧
    (∀ m ∈ w.alloc.m_memory,
      (∀ n ∈ m.freelist, n.start < n.stop ∧ withinChunk n m) ∧
      m.freelist.Pairwise NodeDisj) := by
  have hi := reachable_inv h
  refine ⟨hi.outs_disj, hi.outs_free, ?_⟩
  intro m hm
  refine ⟨(hi.wf m hm).1, ?_⟩
  refine List.Pairwise.imp ?_ (hi.wf m hm).2
  intro p q hpq x hx1 hx2
  have h1 := hx1.2
  have h2 := hx2.1
  omega

/-- C2 (witness): the world after one 64-byte allocation from the empty
allocator is reachable and satisfies the disjointness properties. -/
theorem C2_disjointness_witness :
    Reachable ⟨⟨[⟨4096, 65536, [⟨4160, 69632⟩]⟩]⟩, [⟨4096, 4160⟩]⟩ ∧
    ((⟨⟨[⟨4096, 65536, [⟨4160, 69632⟩]⟩]⟩, [⟨4096, 4160⟩]⟩ : World).outstanding.Pairwise NodeDisj ∧
     (∀ r ∈ (⟨⟨[⟨4096, 65536, [⟨4160, 69632⟩]⟩]⟩, [⟨4096, 4160⟩]⟩ : World).outstanding,
       ∀ m ∈ (⟨⟨[⟨4096, 65536, [⟨4160, 69632⟩]⟩]⟩, [⟨4096, 4160⟩]⟩ : World).alloc.m_memory,
        ∀ n ∈ m.freelist, NodeDisj r n) ∧
     (∀ m ∈ (⟨⟨[⟨4096, 65536, [⟨4160, 69632⟩]⟩]⟩, [⟨4096, 4160⟩]⟩ : World).alloc.m_memory,
       (∀ n ∈ m.freelist, n.start < n.stop ∧ withinChunk n m) ∧
       m.freelist.Pairwise NodeDisj)) :=
  have hreach : Reachable ⟨⟨[⟨4096, 65536, [⟨4160, 69632⟩]⟩]⟩, [⟨4096, 4160⟩]⟩ :=
    Relation.ReflTransGen.single step1
  ⟨hreach, C2_disjointness hreach⟩

/-- C3: Allocation.free is idempotent: after any free the handle is
invalid and a second free (or the destructor, or a free on an invalid,
default-constructed or moved-from handle) leaves the allocator state
unchanged and releases nothing. -/
theorem C3_idempotent_free :
    (∀ (a : Allocation) (st st₂ : Allocator),
      ((a.free st).1).free st₂ = (⟨false, 0, 0⟩, st₂)) ∧
    (∀ (a : Allocation) (st : Allocator), a.op_bool = false → a.free st = (⟨false, 0, 0⟩, st)) ∧
    (∀ st : Allocator, Allocation.default_ctor.free st = (⟨false, 0, 0⟩, st)) ∧
    (∀ (dst src : Allocation) (st st₂ : Allocator),
      ((dst.move_assign src st).2.1).free st₂ = (⟨false, 0, 0⟩, st₂)) ∧
    (∀ (a : Allocation) (st st₂ : Allocator),
      Allocation.dtor (a.free st).1 st₂ = st₂) := by
  have hfst : ∀ (a : Allocation) (st : Allocator), (a.free st).1 = ⟨false, 0, 0⟩ := by
    intro a st
    unfold Allocation.free
    split <;> rfl
  refine ⟨?_, ?_, fun st => rfl, fun dst src st st₂ => rfl, ?_⟩
  · intro a st st₂
    rw [hfst a st]
    rfl
  · intro a st h
    have h0 : a.m_address = 0 ∨ a.m_size = 0 := by
      by_contra hc
      push_neg at hc
      rw [Allocation.op_bool] at h
      simp [hc.1, hc.2] at h
    unfold Allocation.free
    rw [if_neg]
    rintro ⟨h1, h2, h3⟩
    rcases h0 with h0 | h0
    · exact h2 h0
    · exact h3 h0
  · intro a st st₂
    rw [hfst a st]
    rfl

/-- C3 (witness): freeing an invalid handle (zero address) leaves a
concrete allocator state unchanged. -/
theorem C3_idempotent_free_witness :
    Allocation.op_bool ⟨true, 0, 64⟩ = false ∧
    Allocation.free ⟨true, 0, 64⟩ ⟨[]⟩ = (⟨false, 0, 0⟩, ⟨[]⟩) :=
  ⟨by decide, C3_idempotent_free.2.1 ⟨true, 0, 64⟩ ⟨[]⟩ (by decide)⟩

/-- C4: in every reachable world with no outstanding allocation, each
chunk's free list is exactly one node spanning the whole chunk
[base, base+size): allocate-then-free round trips restore the fully
free state. -/
theorem C4_no_leak {w : World} (h : Reachable w) (hout : w.outstanding = []) :
    ∀ m ∈ w.alloc.m_memory, m.freelist = [⟨m.address, m.address + m.size⟩] := by
  have hi := reachable_inv h
  intro m hm
  refine freelist_full_singleton (hi.wf m hm) (hi.pos m hm) ?_
  intro x
  rw [hi.cover m hm x]
  constructor
  · rintro (hcf | ⟨r, hr, h1, h2⟩)
    · exact hcf
    · rw [hout] at hr
      exact absurd hr (List.not_mem_nil r)
  · exact Or.inl

/-- C4 (witness): allocating 64 bytes from the empty allocator and
freeing the allocation yields a reachable world whose only chunk has
the single whole-chunk free node. -/
theorem C4_no_leak_witness :
    Reachable ⟨⟨[⟨4096, 65536, [⟨4096, 69632⟩]⟩]⟩, []⟩ ∧
    (∀ m ∈ (⟨⟨[⟨4096, 65536, [⟨4096, 69632⟩]⟩]⟩, []⟩ : World).alloc.m_memory,
      m.freelist = [⟨m.address, m.address + m.size⟩]) :=
  have hreach : Reachable ⟨⟨[⟨4096, 65536, [⟨4096, 69632⟩]⟩]⟩, []⟩ :=
    Relation.ReflTransGen.tail (Relation.ReflTransGen.single step1) step2
  ⟨hreach, C4_no_leak hreach rfl⟩

/-- C5: on a free list in the allocator's sorted form (nonempty ranges
sorted with no overlap), combine_adjacent_freenodes covers exactly the
same addresses and afterwards no two nodes satisfy nodeA.end ==
nodeB.start: every contiguous pair has been merged and no further merge
applies. -/
theorem C5_combine_adjacent {l : List FreeNode}
    (hne : ∀ n ∈ l, n.start < n.stop)
    (hs : l.Pairwise fun a b => a.stop ≤ b.start) :
    (∀ p ∈ combine_adjacent_freenodes l, ∀ q ∈ combine_adjacent_freenodes l,
      p.stop ≠ q.start) ∧
    (∀ x, coversF (combine_adjacent_freenodes l) x ↔ coversF l x) := by
  obtain ⟨h1, h2⟩ := combine_wf hne hs
  exact ⟨flsorted_no_adjacent h1 h2, combine_cover hne hs⟩

/-- C5 (witness): coalescing the concrete list [0,4), [4,8), [10,12)
merges the touching pair and leaves no adjacency. -/
theorem C5_combine_adjacent_witness :
    (∀ n ∈ [(⟨0, 4⟩ : FreeNode), ⟨4, 8⟩, ⟨10, 12⟩], n.start < n.stop) ∧
    ([(⟨0, 4⟩ : FreeNode), ⟨4, 8⟩, ⟨10, 12⟩].Pairwise fun a b => a.stop ≤ b.start) ∧
    combine_adjacent_freenodes [⟨0, 4⟩, ⟨4, 8⟩, ⟨10, 12⟩] = [⟨0, 8⟩, ⟨10, 12⟩] ∧
    ((∀ p ∈ combine_adjacent_freenodes [(⟨0, 4⟩ : FreeNode), ⟨4, 8⟩, ⟨10, 12⟩],
        ∀ q ∈ combine_adjacent_freenodes [(⟨0, 4⟩ : FreeNode), ⟨4, 8⟩, ⟨10, 12⟩],
        p.stop ≠ q.start) ∧
      (∀ x, coversF (combine_adjacent_freenodes [(⟨0, 4⟩ : FreeNode), ⟨4, 8⟩, ⟨10, 12⟩]) x ↔
        coversF [(⟨0, 4⟩ : FreeNode), ⟨4, 8⟩, ⟨10, 12⟩] x)) :=
  ⟨by decide, by decide, by decide, C5_combine_adjacent (by decide) (by decide)⟩

end SafetyHook

namespace SafetyHook

/-- C6: the first-fit reuse scenario.  From an empty allocator,
allocate(64) reserves one chunk and returns its base 4096; a second
allocate(64) splits the prefix 4160 off the same chunk; freeing the
first allocation reinserts [4096, 4160) into the free list; a final
allocate(32) succeeds with address 4096 — the freed 64-byte range is
reused first-fit — even though the OS oracle would fail any new
reservation and the probe list is empty, and the pool still holds
exactly the one original chunk. -/
theorem C6_first_fit_reuse :
    Allocator.allocate (fun _ => OSReply.granted) [4096] ⟨[]⟩ 64
      = (.ok 4096, ⟨[⟨4096, 65536, [⟨4160, 69632⟩]⟩]⟩) ∧
    Allocator.allocate (fun _ => OSReply.fatal) [] ⟨[⟨4096, 65536, [⟨4160, 69632⟩]⟩]⟩ 64
      = (.ok 4160, ⟨[⟨4096, 65536, [⟨4224, 69632⟩]⟩]⟩) ∧
    Allocator.free ⟨[⟨4096, 65536, [⟨4224, 69632⟩]⟩]⟩ 4096 64
      = ⟨[⟨4096, 65536, [⟨4096, 4160⟩, ⟨4224, 69632⟩]⟩]⟩ ∧
    Allocator.allocate (fun _ => OSReply.fatal) []
      ⟨[⟨4096, 65536, [⟨4096, 4160⟩, ⟨4224, 69632⟩]⟩]⟩ 32
      = (.ok 4096, ⟨[⟨4096, 65536, [⟨4128, 4160⟩, ⟨4224, 69632⟩]⟩]⟩) :=
  ⟨rfl, rfl, rfl, rfl⟩

/-- C7: moving an Allocation transfers allocator reference, address and
size to the destination and invalidates the source; the destination's
previously held range is freed first; a moved-from source converts to
false and its destructor releases nothing. -/
theorem C7_move_semantics :
    ∀ (dst src : Allocation) (st st₂ : Allocator),
      (dst.move_assign src st).1 = ⟨src.m_allocator, src.m_address, src.m_size⟩ ∧
      ((dst.move_assign src st).2.1).op_bool = false ∧
      (dst.move_assign src st).2.2 = (dst.free st).2 ∧
      Allocation.dtor (dst.move_assign src st).2.1 st₂ = st₂ ∧
      (Allocation.move_construct src).1 = ⟨src.m_allocator, src.m_address, src.m_size⟩ ∧
      ((Allocation.move_construct src).2).op_bool = false :=
  fun _ _ _ _ => ⟨rfl, rfl, rfl, rfl, rfl, rfl⟩

/-- C8: the boolean conversion of an Allocation is true exactly when
both the address and the size are non-zero; a default-constructed or
moved-from Allocation converts to false. -/
theorem C8_operator_bool :
    (∀ a : Allocation, a.op_bool = true ↔ (a.m_address ≠ 0 ∧ a.m_size ≠ 0)) ∧
    Allocation.default_ctor.op_bool = false ∧
    (∀ src : Allocation, ((Allocation.move_construct src).2).op_bool = false) := by
  refine ⟨?_, rfl, fun _ => rfl⟩
  intro a
  simp [Allocation.op_bool]

/-- C9: allocate and allocate_near fail only with BAD_VIRTUAL_ALLOC or
NO_MEMORY_IN_RANGE, returned as a value, and on failure the allocator
state is returned unchanged: no partial chunk is registered. -/
theorem C9_error_behaviour :
    (∀ (os : Nat → OSReply) (cands : List Nat) (al : Allocator) (size : Nat)
        (e : Error) (al' : Allocator),
      Allocator.allocate os cands al size = (.error e, al') →
      (e = Error.BAD_VIRTUAL_ALLOC ∨ e = Error.NO_MEMORY_IN_RANGE) ∧ al' = al) ∧
    (∀ (os : Nat → OSReply) (cands desired : List Nat) (al : Allocator)
        (size maxd : Nat) (e : Error) (al' : Allocator),
      Allocator.allocate_near os cands al desired size maxd = (.error e, al') →
      (e = Error.BAD_VIRTUAL_ALLOC ∨ e = Error.NO_MEMORY_IN_RANGE) ∧ al' = al) :=
  ⟨fun _ _ _ _ _ _ h => internal_allocate_near_error h,
   fun _ _ _ _ _ _ _ _ h => internal_allocate_near_error h⟩

/-- C9 (witness): a fatal OS reply makes allocate fail with
BAD_VIRTUAL_ALLOC, and an exhausted probe list makes allocate_near fail
with NO_MEMORY_IN_RANGE; both leave the empty allocator unchanged. -/
theorem C9_error_behaviour_witness :
    Allocator.allocate (fun _ => OSReply.fatal) [0] ⟨[]⟩ 64
      = (.error Error.BAD_VIRTUAL_ALLOC, ⟨[]⟩) ∧
    ((Error.BAD_VIRTUAL_ALLOC = Error.BAD_VIRTUAL_ALLOC ∨
        Error.BAD_VIRTUAL_ALLOC = Error.NO_MEMORY_IN_RANGE) ∧
      (⟨[]⟩ : Allocator) = ⟨[]⟩) ∧
    Allocator.allocate_near (fun _ => OSReply.granted) [] ⟨[]⟩ [0] 16 0
      = (.error Error.NO_MEMORY_IN_RANGE, ⟨[]⟩) ∧
    ((Error.NO_MEMORY_IN_RANGE = Error.BAD_VIRTUAL_ALLOC ∨
        Error.NO_MEMORY_IN_RANGE = Error.NO_MEMORY_IN_RANGE) ∧
      (⟨[]⟩ : Allocator) = ⟨[]⟩) :=
  ⟨rfl,
   C9_error_behaviour.1 (fun _ => OSReply.fatal) [0] ⟨[]⟩ 64
     Error.BAD_VIRTUAL_ALLOC ⟨[]⟩ rfl,
   rfl,
   C9_error_behaviour.2 (fun _ => OSReply.granted) [] [0] ⟨[]⟩ 16 0
     Error.NO_MEMORY_IN_RANGE ⟨[]⟩ rfl⟩

end SafetyHook
